import Mathlib

/-!
Verification of the airmozilla event-management core against its source.

The development shallowly embeds the pieces of the repository that the
properties below concern:

* `airmozilla/base/utils.py`: `unique_slugify` (with Django's `slugify`
  template filter), `tz_apply` (over pytz zones), and `paginate` (over
  Django's `Paginator`).
* `airmozilla/manage/views.py`: `_event_process` (approval reconciliation)
  and `approval_review` (decision recording).
* The event lifecycle buckets and foreign-key deletion behaviour of the
  `main` app's data model.

Databases are embedded as lists of records, machine integers as `Int`/`Nat`,
and the unbounded `while` loop of `unique_slugify` as a fuel-indexed
recursion together with a theorem that the fuel never runs out.
-/

set_option maxRecDepth 8000

namespace Airmozilla

/-! ### Decimal rendering of counters

`unique_slugify` renders its numeric counter with Python's `"%i"` decimal
formatting.  We compute the little-endian decimal digits with explicit fuel
so the definition is structurally recursive (hence kernel-evaluable), and
relate it to `Nat.digits` to obtain injectivity.
-/

/-- Character for a single decimal digit value, `0 ↦ '0'`, …, `9 ↦ '9'`. -/
def digitCh (d : Nat) : Char := Char.ofNat (48 + d)

/-- Little-endian decimal digits of `n`, with explicit fuel. -/
def decDigitsAux : Nat → Nat → List Nat
  | _, 0 => []
  | 0, _ + 1 => []
  | f + 1, n + 1 => ((n + 1) % 10) :: decDigitsAux f ((n + 1) / 10)

/-- Little-endian decimal digits of `n` (empty for `0`). -/
def decDigits (n : Nat) : List Nat := decDigitsAux n n

/-- Decimal string of `n`, as produced by Python `"%i"` formatting. -/
def natStr (n : Nat) : String :=
  if n = 0 then "0" else String.mk (((decDigits n).reverse).map digitCh)

theorem decDigitsAux_eq_digits (f : Nat) :
    ∀ n : Nat, n ≤ f → decDigitsAux f n = Nat.digits 10 n := by
  induction f with
  | zero =>
    intro n hn
    have : n = 0 := Nat.le_zero.mp hn
    subst this
    simp [decDigitsAux]
  | succ f ih =>
    intro n hn
    match n with
    | 0 => simp [decDigitsAux]
    | m + 1 =>
      rw [decDigitsAux, Nat.digits_def' (by norm_num : (1 : Nat) < 10) (Nat.succ_pos m)]
      congr 1
      have hdiv : (m + 1) / 10 < m + 1 := Nat.div_lt_self (Nat.succ_pos m) (by norm_num)
      exact ih _ (Nat.le_of_lt_succ (Nat.lt_of_lt_of_le hdiv hn))

theorem decDigits_eq_digits (n : Nat) : decDigits n = Nat.digits 10 n :=
  decDigitsAux_eq_digits n n le_rfl

theorem digitCh_inj : ∀ a < 10, ∀ b < 10, digitCh a = digitCh b → a = b := by decide

theorem map_digitCh_inj :
    ∀ l₁ l₂ : List Nat, (∀ x ∈ l₁, x < 10) → (∀ x ∈ l₂, x < 10) →
      l₁.map digitCh = l₂.map digitCh → l₁ = l₂ := by
  intro l₁
  induction l₁ with
  | nil =>
    intro l₂ _ _ h
    cases l₂ with
    | nil => rfl
    | cons b t => simp at h
  | cons a t ih =>
    intro l₂ h₁ h₂ h
    cases l₂ with
    | nil => simp at h
    | cons b t₂ =>
      simp only [List.map_cons, List.cons.injEq] at h
      have ha : a < 10 := h₁ a (List.mem_cons_self a t)
      have hb : b < 10 := h₂ b (List.mem_cons_self b t₂)
      have hab : a = b := digitCh_inj a ha b hb h.1
      have ht : t = t₂ :=
        ih t₂ (fun x hx => h₁ x (List.mem_cons_of_mem a hx))
          (fun x hx => h₂ x (List.mem_cons_of_mem b hx)) h.2
      rw [hab, ht]

theorem natStr_inj {a b : Nat} (ha : 0 < a) (hb : 0 < b) (h : natStr a = natStr b) :
    a = b := by
  unfold natStr at h
  rw [if_neg (Nat.pos_iff_ne_zero.mp ha), if_neg (Nat.pos_iff_ne_zero.mp hb)] at h
  have hdata : ((decDigits a).reverse).map digitCh = ((decDigits b).reverse).map digitCh := by
    exact congrArg String.data h
  have hlt : ∀ n : Nat, ∀ x ∈ (decDigits n).reverse, x < 10 := by
    intro n x hx
    rw [List.mem_reverse] at hx
    rw [decDigits_eq_digits] at hx
    exact Nat.digits_lt_base (by norm_num) hx
  have hrev : (decDigits a).reverse = (decDigits b).reverse :=
    map_digitCh_inj _ _ (hlt a) (hlt b) hdata
  have hdig : decDigits a = decDigits b := List.reverse_injective hrev
  rw [decDigits_eq_digits, decDigits_eq_digits] at hdig
  exact Nat.digits_inj_iff.mp hdig

/-! ### Django slugify and the unique_slugify loop

`unique_slugify(data, models, duplicate_key)` in `airmozilla/base/utils.py`:

* `slug_base = slugify(data)` — Django's template filter: drop characters
  outside `[\w\s-]`, strip surrounding whitespace, lowercase, collapse each
  run of `[-\s]+` into a single `-`;
* loop while any model collection contains the candidate slug, incrementing
  a counter; on the first collision, if `duplicate_key` is non-empty it is
  appended to the base instead of a numeric suffix.

The model collections are embedded as lists of the slugs they currently
hold, and the `while` loop as a fuel-indexed recursion.
-/

/-- ASCII `\w` from Python's regex: letters, digits and underscore. -/
def isWordAscii (c : Char) : Bool := c.isAlphanum || c = '_'

/-- ASCII `\s` from Python's regex: space, tab, newline, CR, FF, VT. -/
def isSpaceAscii (c : Char) : Bool :=
  c = ' ' || c = '\t' || c = '\n' || c = '\r' || c = Char.ofNat 12 || c = Char.ofNat 11

/-- Characters kept by the first substitution `re.sub(r"[^\w\s-]", "", value)`. -/
def slugKeep (c : Char) : Bool := isWordAscii c || isSpaceAscii c || c = '-'

/-- Collapse each run of whitespace or hyphens into a single hyphen,
mirroring `re.sub(r"[-\s]+", "-", value)`.  The boolean records whether the
previous character was part of such a run. -/
def collapseRuns : Bool → List Char → List Char
  | _, [] => []
  | pending, c :: rest =>
    if isSpaceAscii c || c = '-' then
      if pending then collapseRuns true rest
      else '-' :: collapseRuns true rest
    else c :: collapseRuns false rest

/-- Django's `slugify` template filter, restricted to ASCII input. -/
def slugify (s : String) : String :=
  let kept := s.data.filter slugKeep
  let stripped := ((kept.dropWhile isSpaceAscii).reverse.dropWhile isSpaceAscii).reverse
  String.mk (collapseRuns false (stripped.map Char.toLower))

/-- Existence check of the loop condition,
`any(model.objects.filter(slug=slug).exists() for model in models)`:
each model collection is embedded as the list of slugs it holds. -/
def slugExists (models : List (List String)) (slug : String) : Bool :=
  models.any fun model => model.contains slug

/-- Candidate slug with a numeric counter, Python `"%s-%i" % (slug_base, counter)`. -/
def counterSlug (base : String) (k : Nat) : String := base ++ "-" ++ natStr k

/-- The `while` loop of `unique_slugify`, with explicit fuel.  State is
`(slug_base, slug, counter)` exactly as in the Python source; the counter is
incremented on entry to the body, and the first collision consumes the
`duplicate_key` (when non-empty) instead of a numeric suffix. -/
def slugLoop (models : List (List String)) (duplicate_key : String) :
    Nat → String → String → Nat → Option String
  | 0, _, _, _ => none
  | fuel + 1, slug_base, slug, counter =>
    if slugExists models slug then
      if counter + 1 = 1 ∧ duplicate_key ≠ "" then
        slugLoop models duplicate_key fuel (slug_base ++ "-" ++ duplicate_key)
          (slug_base ++ "-" ++ duplicate_key) (counter + 1)
      else
        slugLoop models duplicate_key fuel slug_base
          (counterSlug slug_base (counter + 1)) (counter + 1)
    else some slug

/-- Fuel that provably suffices for the loop: the total number of slugs held
across all collections, plus the initial check, the duplicate-key check and
one slack step. -/
def slugFuel (models : List (List String)) : Nat := (models.map List.length).sum + 3

/-- `unique_slugify` from `airmozilla/base/utils.py`.  The `getD` default is
never reached: `slugLoop_isSome` below shows the loop always returns. -/
def unique_slugify (data : String) (models : List (List String))
    (duplicate_key : String) : String :=
  (slugLoop models duplicate_key (slugFuel models) (slugify data) (slugify data) 0).getD
    (slugify data)

theorem slugLoop_fresh (models : List (List String)) (duplicate_key : String) :
    ∀ fuel slug_base slug counter s,
      slugLoop models duplicate_key fuel slug_base slug counter = some s →
      slugExists models s = false := by
  intro fuel
  induction fuel with
  | zero => intro _ _ _ _ h; simp [slugLoop] at h
  | succ fuel ih =>
    intro slug_base slug counter s h
    rw [slugLoop] at h
    by_cases hex : slugExists models slug
    · rw [if_pos hex] at h
      by_cases hkey : counter + 1 = 1 ∧ duplicate_key ≠ ""
      · rw [if_pos hkey] at h
        exact ih _ _ _ _ h
      · rw [if_neg hkey] at h
        exact ih _ _ _ _ h
    · rw [if_neg hex] at h
      have hs : slug = s := Option.some.inj h
      subst hs
      exact Bool.eq_false_iff.mpr hex

theorem counterSlug_inj (base : String) {j k : Nat} (hj : 0 < j) (hk : 0 < k)
    (h : counterSlug base j = counterSlug base k) : j = k := by
  unfold counterSlug at h
  have hdata : (base ++ "-" ++ natStr j).data = (base ++ "-" ++ natStr k).data :=
    congrArg String.data h
  simp only [String.data_append] at hdata
  have hlist : (natStr j).data = (natStr k).data := List.append_cancel_left hdata
  have hstr : natStr j = natStr k := by
    cases hnj : natStr j
    cases hnk : natStr k
    rw [hnj, hnk] at hlist
    simp only [] at hlist
    exact congrArg String.mk hlist
  exact natStr_inj hj hk hstr

theorem slugExists_iff_mem_flatten (models : List (List String)) (s : String) :
    slugExists models s = true ↔ s ∈ models.flatten := by
  simp [slugExists, List.any_eq_true, List.contains, List.elem_iff, List.mem_flatten]

theorem exists_free_counter (models : List (List String)) (base : String) (c : Nat)
    (hc : 1 ≤ c) :
    ∃ k, c ≤ k ∧ k ≤ c + (models.map List.length).sum ∧
      slugExists models (counterSlug base k) = false := by
  by_contra hall
  push_neg at hall
  have htrue : ∀ k ∈ Finset.Icc c (c + (models.map List.length).sum),
      counterSlug base k ∈ (models.flatten).toFinset := by
    intro k hk
    rw [Finset.mem_Icc] at hk
    have hne := hall k hk.1 hk.2
    have : slugExists models (counterSlug base k) = true := by
      cases hb : slugExists models (counterSlug base k)
      · exact absurd hb hne
      · rfl
    rw [List.mem_toFinset]
    exact (slugExists_iff_mem_flatten models _).mp this
  have hinj : Set.InjOn (counterSlug base)
      (Finset.Icc c (c + (models.map List.length).sum)) := by
    intro x hx y hy hxy
    rw [Finset.coe_Icc, Set.mem_Icc] at hx hy
    exact counterSlug_inj base (Nat.lt_of_lt_of_le Nat.zero_lt_one (hc.trans hx.1))
      (Nat.lt_of_lt_of_le Nat.zero_lt_one (hc.trans hy.1)) hxy
  have hcard := Finset.card_le_card_of_injOn (counterSlug base) htrue hinj
  rw [Nat.card_Icc] at hcard
  have hlen := List.toFinset_card_le (models.flatten)
  rw [List.length_flatten] at hlen
  omega

theorem slugLoop_isSome_of_free (models : List (List String)) (duplicate_key : String) :
    ∀ fuel c base, 1 ≤ c →
      (∃ k, c ≤ k ∧ k < c + fuel ∧ slugExists models (counterSlug base k) = false) →
      (slugLoop models duplicate_key fuel base (counterSlug base c) c).isSome := by
  intro fuel
  induction fuel with
  | zero =>
    intro c base _ hfree
    obtain ⟨k, hk1, hk2, _⟩ := hfree
    omega
  | succ fuel ih =>
    intro c base hc hfree
    rw [slugLoop]
    by_cases hex : slugExists models (counterSlug base c)
    · rw [if_pos hex]
      have hkey : ¬ (c + 1 = 1 ∧ duplicate_key ≠ "") := by
        intro hand
        omega
      rw [if_neg hkey]
      obtain ⟨k, hk1, hk2, hkfree⟩ := hfree
      have hkc : k ≠ c := by
        intro hkc
        rw [hkc] at hkfree
        rw [hkfree] at hex
        exact Bool.noConfusion hex
      exact ih (c + 1) base (by omega) ⟨k, by omega, by omega, hkfree⟩
    · rw [if_neg hex]
      rfl

/-- The loop of `unique_slugify` always returns within `slugFuel models`
iterations: the counter strictly increases, distinct counters give distinct
candidate slugs, and only finitely many candidates can collide with the
finitely many slugs held by the collections. -/
theorem slugLoop_isSome (data : String) (models : List (List String))
    (duplicate_key : String) :
    (slugLoop models duplicate_key (slugFuel models) (slugify data) (slugify data) 0).isSome := by
  have hL : slugFuel models = (models.map List.length).sum + 3 := rfl
  rw [slugFuel, slugLoop]
  by_cases hex : slugExists models (slugify data)
  · rw [if_pos hex]
    by_cases hkey : (0 : Nat) + 1 = 1 ∧ duplicate_key ≠ ""
    · rw [if_pos hkey]
      rw [slugLoop]
      by_cases hex2 : slugExists models (slugify data ++ "-" ++ duplicate_key)
      · rw [if_pos hex2]
        have hkey2 : ¬ ((1 : Nat) + 1 = 1 ∧ duplicate_key ≠ "") := by
          intro hand
          omega
        rw [if_neg hkey2]
        obtain ⟨k, hk1, hk2, hkfree⟩ :=
          exists_free_counter models (slugify data ++ "-" ++ duplicate_key) 2 (by norm_num)
        exact slugLoop_isSome_of_free models duplicate_key _ 2 _ (by norm_num)
          ⟨k, hk1, by omega, hkfree⟩
      · rw [if_neg hex2]
        rfl
    · rw [if_neg hkey]
      obtain ⟨k, hk1, hk2, hkfree⟩ :=
        exists_free_counter models (slugify data) 1 le_rfl
      exact slugLoop_isSome_of_free models duplicate_key _ 1 _ le_rfl
        ⟨k, hk1, by omega, hkfree⟩
  · rw [if_neg hex]
    rfl

/-- C4: for every source string, every list of entity collections and every
(possibly empty) disambiguation key, the slug returned by `unique_slugify`
is not equal to any slug currently held by any entity in any collection, as
observed by the existence checks (`slugExists`) performed during the call. -/
theorem unique_slugify_avoids_existing (data : String) (models : List (List String))
    (duplicate_key : String) :
    slugExists models (unique_slugify data models duplicate_key) = false ∧
    ∀ coll ∈ models, unique_slugify data models duplicate_key ∉ coll := by
  obtain ⟨s, hs⟩ := Option.isSome_iff_exists.mp (slugLoop_isSome data models duplicate_key)
  have hres : unique_slugify data models duplicate_key = s := by
    rw [unique_slugify, hs, Option.getD_some]
  have hfresh : slugExists models s = false := slugLoop_fresh models duplicate_key _ _ _ _ s hs
  refine ⟨hres ▸ hfresh, ?_⟩
  intro coll hcoll hmem
  have : slugExists models (unique_slugify data models duplicate_key) = true :=
    (slugExists_iff_mem_flatten models _).mpr (List.mem_flatten.mpr ⟨coll, hcoll, hmem⟩)
  rw [hres, hfresh] at this
  exact Bool.noConfusion this

theorem unique_slugify_avoids_existing_witness :
    slugExists [["test-event"]] (unique_slugify "Test Event" [["test-event"]] "") = false ∧
    unique_slugify "Test Event" [["test-event"]] "" ∉ ["test-event"] :=
  ⟨(unique_slugify_avoids_existing "Test Event" [["test-event"]] "").1,
    (unique_slugify_avoids_existing "Test Event" [["test-event"]] "").2
      ["test-event"] (List.mem_cons_self _ _)⟩

/-- C5, counterexample: with source "Test Event", key "20120304" and both
"test-event" and "test-event-20120304" already taken, `unique_slugify` does
NOT return "test-event-20120304-1" as the claim states. -/
theorem unique_slugify_key_scenario_not_dash_one :
    unique_slugify "Test Event" [["test-event", "test-event-20120304"]] "20120304" ≠
      "test-event-20120304-1" := by decide

/-- C5, amended: the first call returns "test-event-20120304"; but when that
slug is also taken, the call returns "test-event-20120304-2" — after the
disambiguation key consumes counter value 1, numeric suffixes continue from
2.  (Without a key the numeric counter does start at 1.) -/
theorem unique_slugify_key_scenario :
    unique_slugify "Test Event" [["test-event"]] "20120304" = "test-event-20120304" ∧
    unique_slugify "Test Event" [["test-event", "test-event-20120304"]] "20120304" =
      "test-event-20120304-2" ∧
    unique_slugify "Test Event" [["test-event"]] "" = "test-event-1" := by decide

/-- C6: `unique_slugify` terminates --- the `while` loop, embedded with
explicit fuel, provably returns within `slugFuel models` iterations (the
finite number of slugs held by the collections at call time, plus three),
because the counter strictly increases and distinct counters yield distinct
candidate slugs; `unique_slugify` returns exactly that final slug. -/
theorem unique_slugify_terminates (data : String) (models : List (List String))
    (duplicate_key : String) :
    slugLoop models duplicate_key (slugFuel models) (slugify data) (slugify data) 0 =
      some (unique_slugify data models duplicate_key) := by
  obtain ⟨s, hs⟩ := Option.isSome_iff_exists.mp (slugLoop_isSome data models duplicate_key)
  rw [hs, unique_slugify, hs, Option.getD_some]

/-! ### Approval records and the approval workflow

`Approval` rows from the `main` app, restricted to a single event: `group`
(the reviewing group), `approved`, `processed`, `processed_time` and `user`
(the reviewer who acted).  Groups and users are identified by numbers.

`_event_process` in `airmozilla/manage/views.py` reconciles the existing
approval rows of an event against the desired group set submitted on the
form: it creates an `Approval(group=group, event=event)` for each group in
`desired − current` (emailing that group's members), deletes the row for
each group in `current − desired`, and leaves the rest alone.
-/

structure ApprovalRec where
  group : Nat
  approved : Bool
  processed : Bool
  processed_time : Option Int
  user : Option Nat
deriving DecidableEq

/-- Modelled from the spec for the field defaults only: `main/models.py`
(which declares the `Approval` model) is not under `src/`; per the spec a
newly created Approval has `approved = false` and `processed = false`, with
no processed time and no reviewer. -/
def freshApproval (g : Nat) : ApprovalRec :=
  { group := g, approved := false, processed := false, processed_time := none, user := none }

/-- The approvals portion of `_event_process` (views.py lines 151-182) for
one event.  `current` is the event's existing approval rows
(`event.approval_set.all()`), `desired` the cleaned form data
(`form.cleaned_data['approvals']`).  Returns the post-reconciliation rows
and the list of groups whose members were sent a notification email.  Rows
are appended by `app.save()` before the removals run, exactly as in the
source; `Approval.objects.get(group=approval, event=event).delete()` for a
removed group deletes that group's row. -/
def eventProcessApprovals (current : List ApprovalRec) (desired : List Nat) :
    List ApprovalRec × List Nat :=
  let approvals_old := current.map (fun a => a.group)
  let approvals_add := desired.filter (fun g => decide (g ∉ approvals_old))
  let approvals_remove := approvals_old.filter (fun g => decide (g ∉ desired))
  let afterAdd := current ++ approvals_add.map freshApproval
  (afterAdd.filter (fun a => decide (a.group ∉ approvals_remove)), approvals_add)

theorem mem_eventProcess_fst (current : List ApprovalRec) (desired : List Nat)
    (a : ApprovalRec) :
    a ∈ (eventProcessApprovals current desired).1 ↔
      (a ∈ current ∨ ∃ g, (g ∈ desired ∧ g ∉ current.map (fun x => x.group)) ∧
        a = freshApproval g) ∧
      (a.group ∈ current.map (fun x => x.group) → a.group ∈ desired) := by
  simp only [eventProcessApprovals, List.mem_filter, List.mem_append, List.mem_map,
    List.mem_filter, decide_eq_true_eq]
  constructor
  · rintro ⟨hsrc, hrem⟩
    refine ⟨?_, ?_⟩
    · rcases hsrc with h | ⟨g, ⟨hg₁, hg₂⟩, hg₃⟩
      · exact Or.inl h
      · exact Or.inr ⟨g, ⟨hg₁, hg₂⟩, hg₃.symm⟩
    · intro hold
      by_contra hdes
      exact hrem ⟨hold, hdes⟩
  · rintro ⟨hsrc, himp⟩
    refine ⟨?_, ?_⟩
    · rcases hsrc with h | ⟨g, ⟨hg₁, hg₂⟩, hg₃⟩
      · exact Or.inl h
      · exact Or.inr ⟨g, ⟨hg₁, hg₂⟩, hg₃.symm⟩
    · rintro ⟨hold, hdes⟩
      exact hdes (himp hold)

/-- C1: running the approval reconciliation of `_event_process` with current
group set S (the groups of `current`) and desired group set D leaves exactly
the groups of D holding a live approval row: rows whose group is in D ∩ S
are kept verbatim (and no notification is sent for them), each group of
D − S gains a fresh unprocessed row, and each row whose group is in S − D is
deleted even if already processed; notifications go exactly to D − S. -/
theorem eventProcess_reconciles (current : List ApprovalRec) (desired : List Nat)
    (hcur : (current.map (fun a => a.group)).Nodup) (hdes : desired.Nodup) :
    ((eventProcessApprovals current desired).1.map (fun a => a.group)).Nodup ∧
    (∀ g, g ∈ (eventProcessApprovals current desired).1.map (fun a => a.group) ↔
      g ∈ desired) ∧
    (∀ a ∈ current, a.group ∈ desired → a ∈ (eventProcessApprovals current desired).1) ∧
    (∀ g ∈ desired, g ∉ current.map (fun a => a.group) →
      freshApproval g ∈ (eventProcessApprovals current desired).1) ∧
    (∀ a ∈ current, a.group ∉ desired → a ∉ (eventProcessApprovals current desired).1) ∧
    (∀ g, g ∈ (eventProcessApprovals current desired).2 ↔
      g ∈ desired ∧ g ∉ current.map (fun a => a.group)) := by
  refine ⟨?_, ?_, ?_, ?_, ?_, ?_⟩
  · have hsub : (eventProcessApprovals current desired).1.Sublist
        (current ++ (desired.filter
          (fun g => decide (g ∉ current.map (fun a => a.group)))).map freshApproval) :=
      List.filter_sublist _
    have hmapsub := hsub.map (fun a => a.group)
    refine hmapsub.nodup ?_
    rw [List.map_append, List.map_map]
    have hfg : ((fun a => a.group) ∘ freshApproval) = id := rfl
    rw [hfg, List.map_id]
    refine List.Nodup.append hcur (hdes.filter _) ?_
    intro g hg₁ hg₂
    rw [List.mem_filter, decide_eq_true_eq] at hg₂
    exact hg₂.2 hg₁
  · intro g
    constructor
    · intro hg
      rw [List.mem_map] at hg
      obtain ⟨a, ha, hag⟩ := hg
      rw [mem_eventProcess_fst] at ha
      obtain ⟨hsrc, himp⟩ := ha
      rcases hsrc with h | ⟨g₀, ⟨hg₁, _⟩, hfr⟩
      · subst hag
        exact himp (List.mem_map.mpr ⟨a, h, rfl⟩)
      · subst hfr
        rw [← hag]
        exact hg₁
    · intro hg
      by_cases hold : g ∈ current.map (fun a => a.group)
      · rw [List.mem_map] at hold
        obtain ⟨a, ha, hag⟩ := hold
        rw [List.mem_map]
        refine ⟨a, ?_, hag⟩
        rw [mem_eventProcess_fst]
        exact ⟨Or.inl ha, fun _ => hag ▸ hg⟩
      · rw [List.mem_map]
        refine ⟨freshApproval g, ?_, rfl⟩
        rw [mem_eventProcess_fst]
        exact ⟨Or.inr ⟨g, ⟨hg, hold⟩, rfl⟩, fun _ => hg⟩
  · intro a ha hdes'
    rw [mem_eventProcess_fst]
    exact ⟨Or.inl ha, fun _ => hdes'⟩
  · intro g hg hold
    rw [mem_eventProcess_fst]
    exact ⟨Or.inr ⟨g, ⟨hg, hold⟩, rfl⟩, fun _ => hg⟩
  · intro a ha hnd hmem
    rw [mem_eventProcess_fst] at hmem
    exact hnd (hmem.2 (List.mem_map.mpr ⟨a, ha, rfl⟩))
  · intro g
    simp only [eventProcessApprovals, List.mem_filter, decide_eq_true_eq]

theorem eventProcess_reconciles_witness :
    (([⟨1, true, true, some 5, some 9⟩, ⟨3, false, false, none, none⟩] :
        List ApprovalRec).map (fun a => a.group)).Nodup ∧
    ([1, 2] : List Nat).Nodup ∧
    (∀ g, g ∈ (eventProcessApprovals
        [⟨1, true, true, some 5, some 9⟩, ⟨3, false, false, none, none⟩] [1, 2]).1.map
          (fun a => a.group) ↔ g ∈ [1, 2]) := by
  refine ⟨by decide, by decide, ?_⟩
  exact (eventProcess_reconciles
    [⟨1, true, true, some 5, some 9⟩, ⟨3, false, false, none, none⟩] [1, 2]
    (by decide) (by decide)).2.1

/-! ### Decision recording: approval_review

`approval_review` in `airmozilla/manage/views.py` (lines 690-707): if the
approval's group is not among the acting user's groups, the request is
rejected with a redirect to the approvals page and nothing is written; on a
POST by a member, the approval is saved with `approved = ('approve' in
request.POST)`, `processed = True`, `user = request.user`; a GET by a member
renders the review page.  The `processed_time` update on save is modelled
from the spec: `main/models.py` (which declares the field) is not under
`src/`, and the spec states decision recording sets the processed time to
the current time.
-/

inductive ReviewOutcome
  | redirectToApprovals
  | renderReviewPage
deriving DecidableEq

/-- Shallow embedding of `approval_review` acting on one approval row.
`userGroups` is `request.user.groups.all()`, `isPost` the request method,
`hasApprove` whether the key "approve" occurs in `request.POST`, and `now`
the save time.  Returns the HTTP-level outcome and the (possibly updated)
approval row. -/
def approval_review (approval : ApprovalRec) (userGroups : List Nat) (actingUser : Nat)
    (isPost : Bool) (hasApprove : Bool) (now : Int) : ReviewOutcome × ApprovalRec :=
  if approval.group ∉ userGroups then
    (ReviewOutcome.redirectToApprovals, approval)
  else if isPost then
    (ReviewOutcome.redirectToApprovals,
      { approval with
          approved := hasApprove
          processed := true
          processed_time := some now
          user := some actingUser })
  else
    (ReviewOutcome.renderReviewPage, approval)

/-- C2: when the acting user is not a member of the approval's target group,
`approval_review` redirects away from the review page and returns the
approval row entirely unmutated, whatever the request looks like. -/
theorem approval_review_permission_denied (approval : ApprovalRec) (userGroups : List Nat)
    (actingUser : Nat) (isPost hasApprove : Bool) (now : Int)
    (h : approval.group ∉ userGroups) :
    approval_review approval userGroups actingUser isPost hasApprove now =
      (ReviewOutcome.redirectToApprovals, approval) := by
  rw [approval_review, if_pos h]

theorem approval_review_permission_denied_witness :
    (⟨7, true, true, some 3, some 4⟩ : ApprovalRec).group ∉ ([1, 2] : List Nat) ∧
    approval_review ⟨7, true, true, some 3, some 4⟩ [1, 2] 9 true true 11 =
      (ReviewOutcome.redirectToApprovals, ⟨7, true, true, some 3, some 4⟩) :=
  ⟨by decide, approval_review_permission_denied ⟨7, true, true, some 3, some 4⟩ [1, 2]
    9 true true 11 (by decide)⟩

/-- C3: when a member of the approval's target group submits a POST, the
approval is saved with `approved` equal to whether "approve" was in the
submission, `processed` true, `processed_time` set to the current time
(modelled from the spec, see above), and `user` set to the acting reviewer;
the request then redirects back to the approvals page. -/
theorem approval_review_records_decision (approval : ApprovalRec) (userGroups : List Nat)
    (actingUser : Nat) (hasApprove : Bool) (now : Int)
    (h : approval.group ∈ userGroups) :
    approval_review approval userGroups actingUser true hasApprove now =
      (ReviewOutcome.redirectToApprovals,
        { group := approval.group
          approved := hasApprove
          processed := true
          processed_time := some now
          user := some actingUser }) := by
  rw [approval_review, if_neg (by simpa using h)]
  rfl

theorem approval_review_records_decision_witness :
    (⟨1, false, false, none, none⟩ : ApprovalRec).group ∈ ([1, 2] : List Nat) ∧
    approval_review ⟨1, false, false, none, none⟩ [1, 2] 9 true true 11 =
      (ReviewOutcome.redirectToApprovals, ⟨1, true, true, some 11, some 9⟩) :=
  ⟨by decide, approval_review_records_decision ⟨1, false, false, none, none⟩ [1, 2]
    9 true 11 (by decide)⟩

/-! ### Timezone normalization: tz_apply

`tz_apply(datetime, tz)` in `airmozilla/base/utils.py` strips any attached
tzinfo (`datetime.replace(tzinfo=None)`) and returns
`tz.normalize(tz.localize(datetime))`.  Date-times are embedded as integer
wall-clock values (e.g. minutes since an epoch); an attached tzinfo is a
fixed UTC offset.  A pytz zone is embedded by the offset it assigns when
localizing a naive wall-clock value and the offset in effect at a UTC
instant (used by `normalize`); for the UTC zone both are zero, matching
pytz's `utc` singleton whose `localize` attaches a zero offset and whose
`normalize` is the identity on UTC-aware values.
-/

structure PyDatetime where
  wall : Int
  tzoffset : Option Int
deriving DecidableEq

structure AwareDatetime where
  wall : Int
  offset : Int
deriving DecidableEq

structure PyTz where
  offsetOfWall : Int → Int
  offsetOfUtc : Int → Int

/-- The pytz `localize`: attach the zone's offset for this wall-clock value. -/
def PyTz.localize (tz : PyTz) (wall : Int) : AwareDatetime :=
  { wall := wall, offset := tz.offsetOfWall wall }

/-- The pytz `normalize`: re-express the instant with the offset in effect
at that instant (resolving DST artifacts). -/
def PyTz.normalize (tz : PyTz) (d : AwareDatetime) : AwareDatetime :=
  let utcInstant := d.wall - d.offset
  { wall := utcInstant + tz.offsetOfUtc utcInstant, offset := tz.offsetOfUtc utcInstant }

/-- The UTC instant an aware date-time denotes. -/
def AwareDatetime.instant (d : AwareDatetime) : Int := d.wall - d.offset

/-- The pytz UTC zone: offset zero everywhere. -/
def utcZone : PyTz := { offsetOfWall := fun _ => 0, offsetOfUtc := fun _ => 0 }

/-- The UTC instant a possibly-aware input denotes when its wall-clock
fields are read as UTC after accounting for any attached offset. -/
def PyDatetime.instant (d : PyDatetime) : Int := d.wall - d.tzoffset.getD 0

/-- Embedding of `tz_apply`: strip the attached timezone, then localize and
normalize in `tz`. -/
def tz_apply (d : PyDatetime) (tz : PyTz) : AwareDatetime :=
  tz.normalize (tz.localize d.wall)

/-- C7: for a date-time whose wall-clock fields already denote a UTC instant
(any attached offset is zero or absent), `tz_apply` with zone UTC returns
the very same instant --- and the same wall-clock value, with offset zero:
normalizing an already-UTC value with zone UTC is the identity. -/
theorem tz_apply_utc_identity (d : PyDatetime) (h : d.instant = d.wall) :
    (tz_apply d utcZone).instant = d.instant ∧
    (tz_apply d utcZone).wall = d.wall ∧ (tz_apply d utcZone).offset = 0 := by
  refine ⟨?_, ?_, ?_⟩
  · simp [tz_apply, utcZone, PyTz.normalize, PyTz.localize, AwareDatetime.instant, h]
  · simp [tz_apply, utcZone, PyTz.normalize, PyTz.localize]
  · simp [tz_apply, utcZone, PyTz.normalize, PyTz.localize]

theorem tz_apply_utc_identity_witness :
    (PyDatetime.instant ⟨720, some 0⟩ = (720 : Int)) ∧
    ((tz_apply ⟨720, some 0⟩ utcZone).instant = PyDatetime.instant ⟨720, some 0⟩ ∧
      (tz_apply ⟨720, some 0⟩ utcZone).wall = (720 : Int) ∧
      (tz_apply ⟨720, some 0⟩ utcZone).offset = 0) :=
  ⟨by decide, tz_apply_utc_identity ⟨720, some 0⟩ (by decide)⟩

/-! ### Foreign-key deletion behaviour

The `main` app's relational state, restricted to what the Approval claims
need: events, groups and users by id, and approval rows referencing them.
`main/models.py`, which configures the foreign keys, is not under `src/`;
the deletion semantics are modelled from the spec (and exercised by
`main/tests/test_models.py`): deleting an Event cascades to its Approval
rows, while deleting a Group or User leaves Approval rows in place with the
dangling reference cleared.
-/

structure ApprovalRow where
  id : Nat
  eventId : Nat
  groupId : Option Nat
  userId : Option Nat
deriving DecidableEq

structure MainDb where
  events : List Nat
  groups : List Nat
  users : List Nat
  approvals : List ApprovalRow
deriving DecidableEq

/-- Modelled from the spec: deleting an Event deletes the event row and
cascades to every Approval row belonging to it. -/
def deleteEvent (db : MainDb) (e : Nat) : MainDb :=
  { db with
      events := db.events.filter (fun x => decide (x ≠ e))
      approvals := db.approvals.filter (fun a => decide (a.eventId ≠ e)) }

/-- Modelled from the spec: deleting a Group removes the group row only;
Approval rows survive with the group reference cleared. -/
def deleteGroup (db : MainDb) (g : Nat) : MainDb :=
  { db with
      groups := db.groups.filter (fun x => decide (x ≠ g))
      approvals := db.approvals.map
        (fun a => if a.groupId = some g then { a with groupId := none } else a) }

/-- Modelled from the spec: deleting a User removes the user row only;
Approval rows survive with the user reference cleared. -/
def deleteUser (db : MainDb) (u : Nat) : MainDb :=
  { db with
      users := db.users.filter (fun x => decide (x ≠ u))
      approvals := db.approvals.map
        (fun a => if a.userId = some u then { a with userId := none } else a) }

/-- C8: deleting an Event removes every Approval row of that event (and only
those), while deleting a Group or a User keeps every Approval row in
existence (same id, same event) --- no cascading deletion of event data
through the group or user foreign keys. -/
theorem delete_cascade_behaviour (db : MainDb) (e g u : Nat) :
    (∀ a ∈ (deleteEvent db e).approvals, a.eventId ≠ e) ∧
    (∀ a ∈ db.approvals, a.eventId ≠ e → a ∈ (deleteEvent db e).approvals) ∧
    (∀ a ∈ db.approvals, ∃ b ∈ (deleteGroup db g).approvals,
      b.id = a.id ∧ b.eventId = a.eventId) ∧
    (∀ a ∈ db.approvals, ∃ b ∈ (deleteUser db u).approvals,
      b.id = a.id ∧ b.eventId = a.eventId) := by
  refine ⟨?_, ?_, ?_, ?_⟩
  · intro a ha
    rw [deleteEvent] at ha
    simp only [List.mem_filter, decide_eq_true_eq] at ha
    exact ha.2
  · intro a ha hne
    rw [deleteEvent]
    simp only [List.mem_filter, decide_eq_true_eq]
    exact ⟨ha, hne⟩
  · intro a ha
    refine ⟨if a.groupId = some g then { a with groupId := none } else a, ?_, ?_⟩
    · rw [deleteGroup]
      simp only [List.mem_map]
      exact ⟨a, ha, rfl⟩
    · by_cases hg : a.groupId = some g
      · rw [if_pos hg]
        exact ⟨rfl, rfl⟩
      · rw [if_neg hg]
        exact ⟨rfl, rfl⟩
  · intro a ha
    refine ⟨if a.userId = some u then { a with userId := none } else a, ?_, ?_⟩
    · rw [deleteUser]
      simp only [List.mem_map]
      exact ⟨a, ha, rfl⟩
    · by_cases hu : a.userId = some u
      · rw [if_pos hu]
        exact ⟨rfl, rfl⟩
      · rw [if_neg hu]
        exact ⟨rfl, rfl⟩

/-! ### Event lifecycle classification

The five lifecycle buckets (initiated, upcoming, live, archiving, archived)
are the `Event.objects` manager predicates consumed by
`airmozilla/manage/views.py` (`events`) and, inline, by
`airmozilla/main/views.py` (`home`).  The manager itself lives in
`main/models.py`, which is not under `src/`, so the predicates are modelled
from the spec: initiated means the status is not yet scheduled; upcoming
means scheduled with the start in the future; live means scheduled, started
and not yet past the end boundary; archiving means ended with the archive
time still in the future; archived means ended with the archive time passed
(or never set).  Statuses follow the data model: Initiated, Scheduled,
Removed.
-/

inductive EventStatus
  | initiated
  | scheduled
  | removed
deriving DecidableEq

structure LifecycleEvent where
  status : EventStatus
  start_time : Int
  end_time : Int
  archive_time : Option Int
deriving DecidableEq

/-- Modelled from the spec: the event is not yet scheduled. -/
def initiatedB (e : LifecycleEvent) (_ : Int) : Bool :=
  e.status == EventStatus.initiated

/-- Modelled from the spec: scheduled with the start time in the future. -/
def upcomingB (e : LifecycleEvent) (now : Int) : Bool :=
  e.status == EventStatus.scheduled && decide (now < e.start_time)

/-- Modelled from the spec: scheduled, started, not yet at the end boundary. -/
def liveB (e : LifecycleEvent) (now : Int) : Bool :=
  e.status == EventStatus.scheduled && decide (e.start_time ≤ now) &&
    decide (now < e.end_time)

/-- Modelled from the spec: ended, with the archive time still in the future. -/
def archivingB (e : LifecycleEvent) (now : Int) : Bool :=
  e.status == EventStatus.scheduled && decide (e.end_time ≤ now) &&
    (match e.archive_time with
      | some t => decide (now < t)
      | none => false)

/-- Modelled from the spec: ended, with the archive time passed or never set. -/
def archivedB (e : LifecycleEvent) (now : Int) : Bool :=
  e.status == EventStatus.scheduled && decide (e.end_time ≤ now) &&
    (match e.archive_time with
      | some t => decide (t ≤ now)
      | none => true)

/-- How many of the five lifecycle buckets the event falls into at `now`. -/
def bucketCount (e : LifecycleEvent) (now : Int) : Nat :=
  (cond (initiatedB e now) 1 0) + (cond (upcomingB e now) 1 0) +
    (cond (liveB e now) 1 0) + (cond (archivingB e now) 1 0) +
    (cond (archivedB e now) 1 0)

/-- C9, counterexample: the claimed exactly-one classification fails in two
concrete ways.  An event with status Removed that has not yet ended falls
into none of the five buckets (a gap; the management view in fact lists
Removed events through a combined `archived_and_removed()` query, not
through `archived()` alone).  And a Scheduled event whose start time lies
beyond its end boundary falls into two buckets at once, upcoming and
archived (an overlap). -/
theorem lifecycle_not_exactly_one :
    bucketCount ⟨EventStatus.removed, 0, 10, none⟩ 5 = 0 ∧
    bucketCount ⟨EventStatus.scheduled, 10, 0, none⟩ 5 = 2 := by decide

/-- C9, amended: for every event whose status is Initiated or Scheduled and
whose start time does not exceed its end boundary, exactly one of the five
buckets holds at every instant, boundary instants included.  Both
exclusions are forced by the counterexample: a Removed event can fall into
no bucket, and a Scheduled event with its start beyond its end boundary can
fall into two. -/
theorem lifecycle_partition (e : LifecycleEvent) (now : Int)
    (hstatus : e.status ≠ EventStatus.removed) (hse : e.start_time ≤ e.end_time) :
    bucketCount e now = 1 := by
  unfold bucketCount initiatedB upcomingB liveB archivingB archivedB
  cases hst : e.status with
  | initiated =>
    have hF : (EventStatus.initiated == EventStatus.scheduled) = false := rfl
    simp [hF]
  | removed => exact absurd hst hstatus
  | scheduled =>
    have hF : (EventStatus.scheduled == EventStatus.initiated) = false := rfl
    have hT : (EventStatus.scheduled == EventStatus.scheduled) = true := rfl
    by_cases h1 : now < e.start_time
    · have h2 : ¬ e.start_time ≤ now := by omega
      have h3 : ¬ e.end_time ≤ now := by omega
      simp [hF, hT, h1, h2, h3]
    · by_cases h4 : now < e.end_time
      · have h5 : e.start_time ≤ now := by omega
        have h6 : ¬ e.end_time ≤ now := by omega
        simp [hF, hT, h1, h4, h5, h6]
      · have h7 : e.end_time ≤ now := by omega
        cases harch : e.archive_time with
        | none => simp [hF, hT, h1, h4, h7]
        | some t =>
          by_cases h8 : now < t
          · have h9 : ¬ t ≤ now := by omega
            simp [hF, hT, h1, h4, h7, h8, h9]
          · have h10 : t ≤ now := by omega
            simp [hF, hT, h1, h4, h7, h8, h10]

theorem lifecycle_partition_witness :
    ((⟨EventStatus.scheduled, 5, 10, some 20⟩ : LifecycleEvent).status ≠
        EventStatus.removed ∧
      (⟨EventStatus.scheduled, 5, 10, some 20⟩ : LifecycleEvent).start_time ≤
        (⟨EventStatus.scheduled, 5, 10, some 20⟩ : LifecycleEvent).end_time) ∧
    bucketCount ⟨EventStatus.scheduled, 5, 10, some 20⟩ 5 = 1 :=
  ⟨⟨by decide, by decide⟩,
    lifecycle_partition ⟨EventStatus.scheduled, 5, 10, some 20⟩ 5 (by decide) (by decide)⟩

/-! ### Pagination: paginate

`paginate(objects, page, count)` in `airmozilla/base/utils.py` wraps
Django's `Paginator(objects, count)` (orphans 0, empty first page allowed):
it tries `paginator.page(page)`, falls back to page 1 on `PageNotAnInteger`
and to the last page on `EmptyPage`.  Django's `validate_number` raises
`PageNotAnInteger` when the input does not convert to an integer,
`EmptyPage` when it is below 1 or beyond `num_pages`, where
`num_pages = ceil(max(1, count) / per_page)`.  The raw request value is
embedded as either a non-integer or an integer.
-/

inductive PageInput
  | notAnInt
  | intVal (n : Int)
deriving DecidableEq

inductive PageError
  | notAnInteger
  | emptyPage
deriving DecidableEq

/-- Django `Paginator.num_pages` with zero orphans and an empty first page
allowed: `ceil(max(1, object_count) / per_page)`. -/
def num_pages (object_count per_page : Nat) : Nat :=
  (max 1 object_count + per_page - 1) / per_page

/-- Django `Paginator.validate_number`. -/
def validate_number (np : Nat) : PageInput → Except PageError Nat
  | PageInput.notAnInt => Except.error PageError.notAnInteger
  | PageInput.intVal n =>
    if n < 1 then Except.error PageError.emptyPage
    else if (np : Int) < n then
      (if n = 1 then Except.ok 1 else Except.error PageError.emptyPage)
    else Except.ok n.toNat

/-- The objects of page `n` (1-based), `count` per page. -/
def pageItems (objects : List α) (count n : Nat) : List α :=
  (objects.drop ((n - 1) * count)).take count

/-- Embedding of `paginate`: try the requested page, fall back to page 1 on
`PageNotAnInteger` and to the last page on `EmptyPage`.  Returns the page
number served together with its objects. -/
def paginate (objects : List α) (page : PageInput) (count : Nat) : Nat × List α :=
  let np := num_pages objects.length count
  match validate_number np page with
  | Except.ok n => (n, pageItems objects count n)
  | Except.error PageError.notAnInteger => (1, pageItems objects count 1)
  | Except.error PageError.emptyPage => (np, pageItems objects count np)

theorem num_pages_pos (object_count per_page : Nat) (h : 0 < per_page) :
    0 < num_pages object_count per_page := by
  rw [num_pages]
  have h1 : 1 ≤ max 1 object_count := le_max_left 1 object_count
  exact Nat.div_pos (by omega) h

/-- C10: for every object list and requested page value, `paginate` serves a
page instead of failing: a non-integer input gets page 1, an integer past
the last page gets the last page, the served page number is always between
1 and `num_pages`, and for a non-empty object list the served page is
non-empty. -/
theorem paginate_always_serves (α : Type) (objects : List α) (page : PageInput)
    (count : Nat) (hcount : 0 < count) :
    (page = PageInput.notAnInt → (paginate objects page count).1 = 1) ∧
    (∀ n : Int, page = PageInput.intVal n →
      (num_pages objects.length count : Int) < n →
      (paginate objects page count).1 = num_pages objects.length count) ∧
    1 ≤ (paginate objects page count).1 ∧
    (paginate objects page count).1 ≤ num_pages objects.length count ∧
    (objects ≠ [] → (paginate objects page count).2 ≠ []) := by
  have hnp : 0 < num_pages objects.length count := num_pages_pos objects.length count hcount
  have hserved : 1 ≤ (paginate objects page count).1 ∧
      (paginate objects page count).1 ≤ num_pages objects.length count ∧
      (paginate objects page count).2 =
        pageItems objects count (paginate objects page count).1 := by
    cases page with
    | notAnInt => exact ⟨le_rfl, hnp, rfl⟩
    | intVal m =>
      rw [paginate]
      simp only [validate_number]
      by_cases hm1 : m < 1
      · rw [if_pos hm1]
        exact ⟨hnp, le_rfl, rfl⟩
      · rw [if_neg hm1]
        by_cases hm2 : (num_pages objects.length count : Int) < m
        · rw [if_pos hm2]
          by_cases hm3 : m = 1
          · rw [if_pos hm3]
            exact ⟨le_rfl, hnp, rfl⟩
          · rw [if_neg hm3]
            exact ⟨hnp, le_rfl, rfl⟩
        · rw [if_neg hm2]
          show 1 ≤ m.toNat ∧ m.toNat ≤ num_pages objects.length count ∧
            pageItems objects count m.toNat = pageItems objects count m.toNat
          refine ⟨by omega, by omega, rfl⟩
  refine ⟨?_, ?_, hserved.1, hserved.2.1, ?_⟩
  · intro hpg
    subst hpg
    rfl
  · intro m hpg hgt
    subst hpg
    rw [paginate]
    simp only [validate_number]
    have hm1 : ¬ m < 1 := by omega
    have hm3 : ¬ m = 1 := by
      intro hm
      rw [hm] at hgt
      omega
    rw [if_neg hm1, if_pos hgt, if_neg hm3]
  · intro hne
    obtain ⟨h1, h2, h3⟩ := hserved
    set n := (paginate objects page count).1 with hn
    rw [h3, pageItems]
    have hlen : 0 < objects.length := List.length_pos.mpr hne
    have hmax : max 1 objects.length = objects.length := by omega
    have hmul : (n - 1) * count < objects.length := by
      have hdiv : num_pages objects.length count * count ≤ objects.length + count - 1 := by
        rw [num_pages, hmax]
        exact Nat.div_mul_le_self (objects.length + count - 1) count
      have hle : (n - 1) * count ≤ (num_pages objects.length count - 1) * count :=
        Nat.mul_le_mul_right count (by omega)
      have hsplit : (num_pages objects.length count - 1) * count + count =
          num_pages objects.length count * count := by
        obtain ⟨q, hq⟩ : ∃ q, num_pages objects.length count = q + 1 :=
          ⟨num_pages objects.length count - 1, by omega⟩
        rw [hq]
        simp [Nat.succ_mul]
      have hchain : (n - 1) * count + count ≤ objects.length + count - 1 := by
        calc (n - 1) * count + count
            ≤ (num_pages objects.length count - 1) * count + count :=
              Nat.add_le_add_right hle count
          _ = num_pages objects.length count * count := hsplit
          _ ≤ objects.length + count - 1 := hdiv
      have hlt : (n - 1) * count + count < objects.length + count := by omega
      exact Nat.lt_of_add_lt_add_right hlt
    have hdroplen : (objects.drop ((n - 1) * count)).length =
        objects.length - (n - 1) * count := List.length_drop _ _
    have htakelen : ((objects.drop ((n - 1) * count)).take count).length =
        min count (objects.drop ((n - 1) * count)).length := List.length_take _ _
    intro hnil
    rw [hnil] at htakelen
    simp only [List.length_nil] at htakelen
    omega

theorem paginate_always_serves_witness :
    (0 < 10) ∧
    ((PageInput.intVal 5000 = PageInput.notAnInt →
        (paginate [0, 1, 2] (PageInput.intVal 5000) 10).1 = 1) ∧
      (∀ n : Int, PageInput.intVal 5000 = PageInput.intVal n →
        (num_pages ([0, 1, 2] : List Nat).length 10 : Int) < n →
        (paginate [0, 1, 2] (PageInput.intVal 5000) 10).1 =
          num_pages ([0, 1, 2] : List Nat).length 10) ∧
      1 ≤ (paginate [0, 1, 2] (PageInput.intVal 5000) 10).1 ∧
      (paginate [0, 1, 2] (PageInput.intVal 5000) 10).1 ≤
        num_pages ([0, 1, 2] : List Nat).length 10 ∧
      (([0, 1, 2] : List Nat) ≠ [] →
        (paginate [0, 1, 2] (PageInput.intVal 5000) 10).2 ≠ [])) :=
  ⟨by decide, paginate_always_serves Nat [0, 1, 2] (PageInput.intVal 5000) 10 (by decide)⟩

end Airmozilla
